import Mathlib

/-!
Verification of the PopCraft PS1-to-POPStarter manager core
(`src/popstation_core.py`, the module imported by `src/main.py`).

Text is modelled as `List Char`; file contents are strings of characters,
a file system directory is an association list from names to entries.
Every definition is a direct translation of the corresponding Python
function of `popstation_core.py`; the Python standard-library helpers it
relies on (`str.strip`, `str.startswith`, `readlines`/`writelines`,
`os.path.basename`, `os.path.splitext`, `str.replace`, `re.search`,
`re.sub`) are modelled with their documented semantics (Windows `ntpath`
flavour for path functions, UNC prefixes aside, which never arise here).
-/

namespace PopCraft

/-- Text: a Python `str` as a list of characters. -/
abbrev Str := List Char

/-- The characters `str.strip()` removes: Python's `str.isspace()` set,
i.e. `0x09`-`0x0D`, the separators `0x1C`-`0x1F`, the space `0x20`,
`0x85`, `0xA0`, `0x1680`, `0x2000`-`0x200A`, `0x2028`, `0x2029`,
`0x202F`, `0x205F` and `0x3000`. -/
def pyIsSpace (c : Char) : Bool :=
  (9 ≤ c.toNat && c.toNat ≤ 13) || (28 ≤ c.toNat && c.toNat ≤ 32) ||
  c.toNat = 133 || c.toNat = 160 || c.toNat = 5760 ||
  (8192 ≤ c.toNat && c.toNat ≤ 8202) || c.toNat = 8232 || c.toNat = 8233 ||
  c.toNat = 8239 || c.toNat = 8287 || c.toNat = 12288

/-- Python `s.strip()`: drop whitespace from both ends. -/
def pyStrip (s : Str) : Str :=
  ((s.dropWhile pyIsSpace).reverse.dropWhile pyIsSpace).reverse

/-- Python `s.startswith(p)` (here `startsWith p s`). -/
def startsWith : Str → Str → Bool
  | [], _ => true
  | _ :: _, [] => false
  | p :: ps, c :: cs => p = c && startsWith ps cs

/-- Helper for `splitLines`: accumulates the current (reversed) line. -/
def splitLinesAux : Str → Str → List Str
  | [], acc => if acc.isEmpty then [] else [acc.reverse]
  | c :: cs, acc =>
    if c = '\n' then (acc.reverse ++ ['\n']) :: splitLinesAux cs []
    else splitLinesAux cs (c :: acc)

/-- Split an already newline-translated character stream into lines,
each keeping its trailing `'\n'`; a final piece without a newline is
kept as a last line. `pyReadlines` composes this with the
universal-newline translation of a Python text-mode read. -/
def splitLines (s : Str) : List Str := splitLinesAux s []

/-- The universal-newline translation a Python text-mode read performs
on the file content: `"\r\n"` and a lone `"\r"` both become `"\n"`. -/
def translateNewlines : Str → Str
  | [] => []
  | '\r' :: '\n' :: cs => '\n' :: translateNewlines cs
  | '\r' :: cs => '\n' :: translateNewlines cs
  | c :: cs => c :: translateNewlines cs

/-- Python `f.readlines()` / iteration over a text-mode file:
universal-newline translation followed by the line split. -/
def pyReadlines (content : Str) : List Str :=
  splitLines (translateNewlines content)

/-- Python `f.writelines(lines)`: the file content is the concatenation. -/
def joinLines : List Str → Str
  | [] => []
  | l :: ls => l ++ joinLines ls

/-- The search key `game_key + "="` used by `update_conf_apps` and
`get_elf_name_from_game_key` (`popstation_core.py:512,542`). -/
def keyPat (game_key : Str) : Str := game_key ++ ['=']

/-- The ledger entry `f"{game_key}=mass:/{elf_name}\n"`
(`popstation_core.py:504`). -/
def mkEntry (game_key elf_name : Str) : Str :=
  game_key ++ "=mass:/".data ++ elf_name ++ ['\n']

/-- The line-scanning loop of `update_conf_apps`
(`popstation_core.py:509-518`): returns the rewritten lines together with
the `updated` flag. -/
def updConfAux (entry pat : Str) : List Str → List Str × Bool
  | [] => ([], false)
  | l :: ls =>
    let r := updConfAux entry pat ls
    if startsWith pat l then (entry :: r.1, true) else (l :: r.1, r.2)

/-- `update_conf_apps` on the list of ledger lines
(`popstation_core.py:501-520`): replace every line starting with
`game_key + "="` by the new entry; append the entry if no line matched. -/
def updConfLines (game_key elf_name : Str) (lines : List Str) : List Str :=
  let entry := mkEntry game_key elf_name
  let r := updConfAux entry (keyPat game_key) lines
  if r.2 then r.1 else r.1 ++ [entry]

/-- `update_conf_apps` on the persisted ledger file content: read the
lines, rewrite them, write the concatenation back. A missing file is the
empty content (`lines = []`). -/
def updConf (game_key elf_name : Str) (content : Str) : Str :=
  joinLines (updConfLines game_key elf_name (pyReadlines content))

/-- First element of a list of lines satisfying a predicate (the
`for line in f: if ...: return ...` pattern). -/
def firstMatch (p : Str → Bool) : List Str → Option Str
  | [] => none
  | l :: ls => if p l then some l else firstMatch p ls

/-- The first ledger line for a key: the first line of the content that
starts with `game_key + "="`. -/
def lookupConfLine (game_key : Str) (content : Str) : Option Str :=
  firstMatch (startsWith (keyPat game_key)) (pyReadlines content)

/-- Python `line.split("=", 1)[1]`: everything after the first `'='`. -/
def afterFirstEq (l : Str) : Str := (l.dropWhile (fun c => c ≠ '=')).tail

/-- Python `s.replace("mass:/", "")`: remove every (non-overlapping,
left-to-right) occurrence of `"mass:/"`. -/
def removeMass : Str → Str
  | 'm' :: 'a' :: 's' :: 's' :: ':' :: '/' :: cs => removeMass cs
  | c :: cs => c :: removeMass cs
  | [] => []

/-- `ntpath.splitdrive`, restricted to drive letters (`"C:..."`); UNC
share prefixes do not occur in this code base. Returns the part after
the drive. -/
def dropDrive : Str → Str
  | _ :: ':' :: rest => rest
  | p => p

/-- `os.path.basename` (Windows `ntpath`): the part of the path after the
drive and the last `'/'` or `'\\'`. -/
def ntBasename (p : Str) : Str :=
  ((dropDrive p).reverse.takeWhile (fun c => c ≠ '/' && c ≠ '\\')).reverse

/-- `os.path.splitext` on the no-separator part `name` of a path: split at
the last dot, unless all characters before it are dots. -/
def splitextName (name : Str) : Str × Str :=
  let revAfterDot := name.reverse.takeWhile (fun c => c ≠ '.')
  if revAfterDot.length = name.length then (name, [])
  else
    let stem := name.take (name.length - revAfterDot.length - 1)
    let ext := name.drop (name.length - revAfterDot.length - 1)
    if stem.any (fun c => c ≠ '.') then (stem, ext) else (name, [])

/-- `os.path.splitext` (Windows `ntpath`): the extension is taken inside
the part after the last path separator. -/
def splitextNT (p : Str) : Str × Str :=
  let revname := p.reverse.takeWhile (fun c => c ≠ '/' && c ≠ '\\')
  let name := revname.reverse
  let headPart := p.take (p.length - name.length)
  ((headPart ++ (splitextName name).1), (splitextName name).2)

/-- Scanner for `re` bracket groups: given the characters after a `'['`,
return the group (characters up to the first `']'`) and the rest after
that `']'`; fail at a newline (`.` does not match `'\n'`) or at the end. -/
def bracketSplit : Str → Option (Str × Str)
  | [] => none
  | c :: cs =>
    if c = ']' then some ([], cs)
    else if c = '\n' then none
    else (bracketSplit cs).map (fun gr => (c :: gr.1, gr.2))

/-- `re.search(r"\[(.*?)\]", s)`: the group of the leftmost match. -/
def firstBracket : Str → Option Str
  | [] => none
  | c :: cs =>
    if c = '[' then
      match bracketSplit cs with
      | some gr => some gr.1
      | none => firstBracket cs
    else firstBracket cs

/-- `re.sub(r"\[.*?\]", "", s)`: delete every (non-overlapping,
left-to-right) bracketed group. -/
def removeBrackets : Str → Str
  | [] => []
  | c :: cs =>
    if c = '[' then
      match h : bracketSplit cs with
      | some gr => removeBrackets gr.2
      | none => c :: removeBrackets cs
    else c :: removeBrackets cs
termination_by s => s.length
decreasing_by
  · have key : ∀ (l : Str) (gr : Str × Str),
        bracketSplit l = some gr → gr.2.length ≤ l.length := by
      intro l
      induction l with
      | nil => intro gr h; simp [bracketSplit] at h
      | cons a as ih =>
        intro gr h
        by_cases ha : a = ']'
        · subst ha; simp [bracketSplit] at h
          rw [← h]; simp
        · by_cases hn : a = '\n'
          · subst hn; simp [bracketSplit] at h
          · have hb : bracketSplit (a :: as)
                = (bracketSplit as).map (fun gr => (a :: gr.1, gr.2)) := by
              simp [bracketSplit, ha, hn]
            rw [hb] at h
            cases hbs : bracketSplit as with
            | none => rw [hbs] at h; simp at h
            | some gr' =>
              rw [hbs] at h; simp at h
              have := ih gr' hbs
              rw [← h]
              simp
              omega
    have := key cs _ h
    simp only [List.length_cons]
    omega
  · simp
  · simp

/-- The decade base codepoints of the Unicode `Nd` (decimal digit)
ranges: a Python `str` regex `\d` matches exactly the characters lying
in a decade starting at one of these, and the digit's decimal value is
its offset in the decade. -/
def ndBases : List Nat :=
  [48, 1632, 1776, 1984, 2406, 2534, 2662, 2790, 2918, 3046, 3174, 3302,
   3430, 3558, 3664, 3792, 3872, 4160, 4240, 6112, 6160, 6470, 6608, 6784,
   6800, 6992, 7088, 7232, 7248, 42528, 43216, 43264, 43472, 43504, 43600,
   44016, 65296, 66720, 68912, 69734, 69872, 69942, 70096, 70384, 70736,
   70864, 71248, 71360, 71472, 71904, 72016, 72784, 73040, 73120, 92768,
   92864, 93008, 120782, 120792, 120802, 120812, 120822, 123200, 123632,
   125264, 130032]

/-- Python regex `\d` on a `str`: a Unicode decimal digit. -/
def pyIsDigit (c : Char) : Bool :=
  ndBases.any (fun b => b ≤ c.toNat && c.toNat < b + 10)

/-- The decimal value of a Unicode digit: its offset in its decade. -/
def pyDigitVal (c : Char) : Nat :=
  match ndBases.find? (fun b => b ≤ c.toNat && c.toNat < b + 10) with
  | some b => c.toNat - b
  | none => 0

/-- Python `int(...)` on a string of Unicode decimal digits. -/
def digitsVal (s : Str) : Nat :=
  s.foldl (fun acc c => 10 * acc + pyDigitVal c) 0

/-- `re.search(r"(\d+)%", line)` as in `convert_chd_to_iso_temp`
(`popstation_core.py:116-118`): scanning left to right, succeed at the
first position whose (maximal) digit run is immediately followed by
`'%'`, returning the integer value of that run. -/
def pctSearch : Str → Option Nat
  | [] => none
  | c :: cs =>
    if pyIsDigit c then
      match (c :: cs).dropWhile pyIsDigit with
      | '%' :: _ => some (digitsVal ((c :: cs).takeWhile pyIsDigit))
      | _ => pctSearch cs
    else pctSearch cs

/-- The first maximal digit run of `s` that is immediately followed by
`'%'` — the reading of the specification sentence; stated independently
of the regex scanner by skipping whole runs. -/
def firstPctRun : Str → Option Str
  | [] => none
  | c :: cs =>
    if hc : pyIsDigit c then
      match (c :: cs).dropWhile pyIsDigit with
      | '%' :: _ => some ((c :: cs).takeWhile pyIsDigit)
      | _ => firstPctRun ((c :: cs).dropWhile pyIsDigit)
    else firstPctRun cs
termination_by s => s.length
decreasing_by
  · have hlen : ∀ (l : Str), (l.dropWhile pyIsDigit).length ≤ l.length := by
      intro l
      induction l with
      | nil => simp [List.dropWhile]
      | cons a as ih =>
        by_cases hd : pyIsDigit a
        · simp [List.dropWhile, hd]; omega
        · simp [List.dropWhile, hd]
    have hstep : (List.dropWhile pyIsDigit (c :: cs)).length ≤ cs.length := by
      simp only [List.dropWhile, hc]
      exact hlen cs
    simp only [List.length_cons]
    omega
  · simp

/-- One line of the progress loop of `convert_chd_to_iso_temp`
(`popstation_core.py:112-124`) acting on the `last_pct` state: the result
is the new `last_pct` and the percentage passed to `progress_callback`,
when it is invoked. Empty (stripped) lines and lines without a match
leave the state unchanged and invoke no callback. -/
def chdProgressStep (last : Nat) (raw : Str) : Nat × Option Nat :=
  let line := pyStrip raw
  if line.isEmpty then (last, none)
  else
    match pctSearch line with
    | some pct => if pct ≠ last then (pct, some pct) else (last, none)
    | none => (last, none)

/-- `get_elf_name_from_game_key` (`popstation_core.py:536-549`) as a
function of the ledger file content (`none` = file missing). -/
def get_elf_name_from_game_key (game_key : Str) (content : Option Str) :
    Option Str :=
  match content with
  | none => none
  | some c =>
    match firstMatch (startsWith (keyPat game_key)) (pyReadlines c) with
    | none => none
    | some line =>
      let elf_path := pyStrip (afterFirstEq line)
      let elf_name := ntBasename (removeMass elf_path)
      if startsWith "XX.".data elf_name then
        some ((elf_name.take (elf_name.length - 4)).drop 3)
      else some (splitextNT elf_name).1

/-- The ledger directory state: the `conf_apps.cfg` content (`none` when
the file does not exist) and the backup files, as name/content pairs. -/
structure LedgerFS where
  conf : Option Str
  backups : List (Str × Str)

/-- `backup_conf_file` (`popstation_core.py:491-499`), with the timestamp
string as a parameter: when the ledger file exists, write a copy of its
content to `backup/conf_apps_<timestamp>.bak`. -/
def backup_conf_file (ts : Str) (st : LedgerFS) : LedgerFS :=
  match st.conf with
  | none => st
  | some c =>
    { st with backups :=
        st.backups ++ [("conf_apps_".data ++ ts ++ ".bak".data, c)] }

/-- `update_conf_apps` (`popstation_core.py:501-520`) on the directory
state: back up the current ledger, then rewrite it. -/
def update_conf_apps_fs (game_key elf_name ts : Str) (st : LedgerFS) :
    LedgerFS :=
  let st1 := backup_conf_file ts st
  { st1 with conf := some (updConf game_key elf_name (st1.conf.getD [])) }

/-- The name-derivation part of `process_game`
(`popstation_core.py:631-642`). -/
structure GameNames where
  game_name : Str
  code_in_brackets : Option Str
  base_name : Str
  elf_name : Str
  save_folder_name : Str
  vcd_name : Str
  conf_name : Str

/-- The Python truthiness fallback `a if a else b` applied to an
optional regex group: both `None` and the empty string fall back. -/
def pyOrElse (code : Option Str) (fallback : Str) : Str :=
  match code with
  | some g => if g.isEmpty then fallback else g
  | none => fallback

/-- `process_game`'s derivation of every name it generates from the input
path (`popstation_core.py:631-642`): the identifier `base_name` is the
first bracketed group of the extension-less base filename when that
group exists and is non-empty (Python truthiness at line 637), else
that base filename; `conf_name` is the base filename with every
bracketed group deleted and surrounding whitespace stripped. -/
def processGameNames (file_path : Str) : GameNames :=
  let original_name := ntBasename file_path
  let game_name := (splitextNT original_name).1
  let code := firstBracket game_name
  let base_name := pyOrElse code game_name
  { game_name := game_name
    code_in_brackets := code
    base_name := base_name
    elf_name := "XX.".data ++ base_name ++ ".ELF".data
    save_folder_name := base_name
    vcd_name := pyOrElse code game_name ++ ".VCD".data
    conf_name := pyStrip (removeBrackets game_name) }

/-- The artwork file name written by `save_cover`
(`popstation_core.py:522-527`). -/
def save_cover_name (elf_name_no_ext cover_path : Str) : Str :=
  "XX.".data ++ elf_name_no_ext ++ ".ELF_COV".data ++ (splitextNT cover_path).2

/-- The artwork file name written by `save_logo`
(`popstation_core.py:529-534`). -/
def save_logo_name (elf_name_no_ext logo_path : Str) : Str :=
  "XX.".data ++ elf_name_no_ext ++ ".ELF_LGO".data ++ (splitextNT logo_path).2

/-- The code normalisation of `copy_description_cfg`
(`popstation_core.py:568-571`): strip, remove one surrounding bracket
pair if present, strip again. -/
def cleanCodeOf (game_code : Str) : Str :=
  let c := pyStrip game_code
  if c.head? = some '[' ∧ c.getLast? = some ']' then
    pyStrip ((c.drop 1).dropLast)
  else c

/-- State for `copy_description_cfg`: the files of `_description_psx`
and the files of the target `CFG` directory, as name/content pairs. -/
structure DescState where
  descFiles : List (Str × Str)
  cfgFiles : List (Str × Str)

/-- Association-list lookup by file name. -/
def lookupFile (n : Str) : List (Str × Str) → Option Str
  | [] => none
  | (m, c) :: fs => if m = n then some c else lookupFile n fs

/-- Replace the first entry named `n` by content `c`. -/
def setFileList (n c : Str) : List (Str × Str) → List (Str × Str)
  | [] => []
  | (m, c') :: fs =>
    if m = n then (m, c) :: fs else (m, c') :: setFileList n c fs

/-- The part of `copy_description_cfg` (`popstation_core.py:573-627`)
after the code normalisation, as a function of the looked-up file name:
fail when `<name>` is absent from `_description_psx`; when the target
already holds an identical copy (same size, same bytes) do nothing;
otherwise (over)write the target file. -/
def copyDescCore (fname : Str) (st : DescState) : Bool × DescState :=
  match lookupFile fname st.descFiles with
  | none => (false, st)
  | some src =>
    match lookupFile fname st.cfgFiles with
    | some dst =>
      if src.length = dst.length ∧ src = dst then (true, st)
      else (true, { st with cfgFiles := setFileList fname src st.cfgFiles })
    | none => (true, { st with cfgFiles := st.cfgFiles ++ [(fname, src)] })

/-- `copy_description_cfg` (`popstation_core.py:552-627`): normalise the
game code, then look up and copy `<clean_code>.cfg`. -/
def copy_description_cfg (game_code : Str) (st : DescState) : Bool × DescState :=
  copyDescCore (cleanCodeOf game_code ++ ".cfg".data) st

/-- The merge decision of `copy_tree` for a file that already exists at
the destination (`popstation_core.py:60-66`): compare sizes, then byte
contents; `true` = skip (leave the destination untouched), and the second
component is the resulting destination content. -/
def copyFileMerge (s d : Str) : Bool × Str :=
  if s.length = d.length then
    if s = d then (true, d) else (false, s)
  else (false, s)

/-- A file tree: a file with its content, or a directory mapping names to
entries. -/
inductive FSTree where
  | file : Str → FSTree
  | dir : List (String × FSTree) → FSTree

/-- Directory lookup by entry name. -/
def lookupEntry (n : String) : List (String × FSTree) → Option FSTree
  | [] => none
  | (m, t) :: es => if m = n then some t else lookupEntry n es

/-- Replace the first entry named `n` by `t`. -/
def replaceEntry (n : String) (t : FSTree) :
    List (String × FSTree) → List (String × FSTree)
  | [] => []
  | (m, u) :: es =>
    if m = n then (m, t) :: es else (m, u) :: replaceEntry n t es

mutual

/-- `copy_tree` (`popstation_core.py:42-71`): merge the source tree into
the destination tree. Directories that exist on both sides are merged
recursively; an existing destination file is overwritten only when its
content differs (`copyFileMerge`); entries missing at the destination
are copied whole. A source directory colliding with a destination file
leaves that file unchanged: the nested `copy_tree` call fails on its
first entry, is caught by its own handler and its `False` result is
discarded. `none` marks an execution the model abstains from: a source
file colliding with a destination directory, where the program compares
`os.path.getsize` of a directory (OS-dependent metadata) and then either
raises — aborting the remaining loop entries — or `shutil.copy2`s the
file into the directory. -/
def copyTree : FSTree → FSTree → Option FSTree
  | FSTree.dir srcEs, FSTree.dir dstEs =>
    (copyEntries srcEs dstEs).map FSTree.dir
  | _, d => some d

/-- The `for item in os.listdir(src)` loop of `copy_tree`: fold the
source entries into the destination entry list, stopping when an
unmodelled collision is reached. -/
def copyEntries : List (String × FSTree) → List (String × FSTree) →
    Option (List (String × FSTree))
  | [], dst => some dst
  | (n, t) :: rest, dst =>
    match copyEntry n t dst with
    | some dst' => copyEntries rest dst'
    | none => none

/-- One iteration of the `copy_tree` loop, for source entry `n ↦ t`. -/
def copyEntry (n : String) (t : FSTree) (dst : List (String × FSTree)) :
    Option (List (String × FSTree)) :=
  match t with
  | FSTree.dir srcEs =>
    match lookupEntry n dst with
    | some (FSTree.dir dEs) =>
      (copyTree (FSTree.dir srcEs) (FSTree.dir dEs)).map
        (fun r => replaceEntry n r dst)
    | some (FSTree.file _) => some dst
    | none => some (dst ++ [(n, FSTree.dir srcEs)])
  | FSTree.file c =>
    match lookupEntry n dst with
    | some (FSTree.file c') =>
      some (replaceEntry n (FSTree.file (copyFileMerge c c').2) dst)
    | some (FSTree.dir _) => none
    | none => some (dst ++ [(n, FSTree.file c)])

end

/-- A newline-terminated line with no interior newline. -/
def ClosedLine (l : Str) : Prop := ∃ t, '\n' ∉ t ∧ l = t ++ ['\n']

/-- A nonempty final line with no newline at all. -/
def OpenLine (l : Str) : Prop := l ≠ [] ∧ '\n' ∉ l

/-- Every line of the list is newline-terminated. -/
def AllClosed (ls : List Str) : Prop := ∀ l ∈ ls, ClosedLine l

end PopCraft

namespace PopCraft

/-! ### Basic lemmas about the text helpers -/

theorem startsWith_append_both (a p s : Str) :
    startsWith (a ++ p) (a ++ s) = startsWith p s := by
  induction a with
  | nil => rfl
  | cons c cs ih => simp [startsWith, ih]

theorem startsWith_append_left (a r : Str) : startsWith a (a ++ r) = true := by
  induction a with
  | nil => rfl
  | cons c cs ih => simp [startsWith, ih]

theorem mkEntry_eq (k e : Str) :
    mkEntry k e = keyPat k ++ ("mass:/".data ++ e ++ ['\n']) := by
  simp [mkEntry, keyPat]

theorem startsWith_mkEntry (k e : Str) :
    startsWith (keyPat k) (mkEntry k e) = true := by
  rw [mkEntry_eq, ← List.append_nil (keyPat k)]
  rw [List.append_assoc]
  rw [startsWith_append_both]
  rfl

theorem updConfAux_spec (entry pat : Str) (ls : List Str) :
    updConfAux entry pat ls =
      (ls.map (fun l => if startsWith pat l then entry else l),
       ls.any (startsWith pat)) := by
  induction ls with
  | nil => rfl
  | cons l ls ih =>
    by_cases h : startsWith pat l = true <;>
      simp [updConfAux, ih, h]

theorem map_replace_of_no_match (p : Str → Bool) (entry : Str) (ls : List Str)
    (h : ls.any p = false) :
    ls.map (fun l => if p l then entry else l) = ls := by
  induction ls with
  | nil => rfl
  | cons l ls ih =>
    simp only [List.any_cons, Bool.or_eq_false_iff] at h
    simp [h.1, ih h.2]

/-! ### Claim C1 -/

theorem updConfLines_spec (game_key elf_name : Str) (lines : List Str) :
    updConfLines game_key elf_name lines =
      if lines.any (startsWith (keyPat game_key)) then
        lines.map (fun l =>
          if startsWith (keyPat game_key) l then mkEntry game_key elf_name
          else l)
      else lines ++ [mkEntry game_key elf_name] := by
  by_cases h : lines.any (startsWith (keyPat game_key)) = true
  · simp [updConfLines, updConfAux_spec, h]
  · simp only [Bool.not_eq_true] at h
    simp [updConfLines, updConfAux_spec, h,
      map_replace_of_no_match _ _ _ h]

/-- Claim C1: `update_conf_apps` scans all existing ledger lines; every
line starting with `game_key + "="` is replaced in place by the entry
`game_key=mass:/elf_name`, every other line is kept unchanged in its
position, and when no line matched the entry is appended at the end. -/
theorem update_conf_apps_scans_and_replaces (game_key elf_name : Str)
    (lines : List Str) :
    updConfLines game_key elf_name lines =
      if lines.any (startsWith (keyPat game_key)) then
        lines.map (fun l =>
          if startsWith (keyPat game_key) l then mkEntry game_key elf_name
          else l)
      else lines ++ [mkEntry game_key elf_name] :=
  updConfLines_spec game_key elf_name lines

/-! ### Claim C2 -/

/-- Claim C2: in a `copy_tree` merge, a file that already exists at the
destination is skipped exactly when source and destination agree on size
and on byte content, and the resulting destination content is the source
content otherwise. -/
theorem copy_tree_skip_iff_identical (s d : Str) :
    ((copyFileMerge s d).1 = true ↔ (s.length = d.length ∧ s = d)) ∧
    (copyFileMerge s d).2 = (if s = d then d else s) := by
  by_cases h2 : s = d
  · subst h2; simp [copyFileMerge]
  · by_cases h1 : s.length = d.length <;> simp [copyFileMerge, h1, h2]

/-! ### Claim C5 -/

/-- Claim C5: every `update_conf_apps` mutation on a directory whose
ledger file exists first records a backup named
`conf_apps_<timestamp>.bak` whose content is exactly the pre-mutation
ledger content. -/
theorem update_conf_apps_backs_up_first (st : LedgerFS)
    (game_key elf_name ts L : Str) (h : st.conf = some L) :
    ("conf_apps_".data ++ ts ++ ".bak".data, L) ∈
      (update_conf_apps_fs game_key elf_name ts st).backups := by
  simp [update_conf_apps_fs, backup_conf_file, h]

/-- Witness for C5 at a concrete state. -/
theorem update_conf_apps_backs_up_first_witness :
    (LedgerFS.mk (some "OLD=mass:/XX.OLD.ELF\n".data) []).conf
        = some "OLD=mass:/XX.OLD.ELF\n".data ∧
    ("conf_apps_".data ++ "20240101_120000".data ++ ".bak".data,
        "OLD=mass:/XX.OLD.ELF\n".data) ∈
      (update_conf_apps_fs "G".data "XX.G.ELF".data "20240101_120000".data
        (LedgerFS.mk (some "OLD=mass:/XX.OLD.ELF\n".data) [])).backups :=
  ⟨rfl, update_conf_apps_backs_up_first _ _ _ _ _ rfl⟩


/-! ### Claim C9 -/

theorem dropWhile_cons_false (p : Char → Bool) (a : Char) (l : Str)
    (h : p a = false) : List.dropWhile p (a :: l) = a :: l := by
  simp [List.dropWhile, h]

theorem pyStrip_of_ends (a b : Char) (m : Str) (ha : pyIsSpace a = false)
    (hb : pyIsSpace b = false) :
    pyStrip (a :: (m ++ [b])) = a :: (m ++ [b]) := by
  unfold pyStrip
  rw [dropWhile_cons_false _ _ _ ha]
  have h2 : (a :: (m ++ [b])).reverse = b :: (m.reverse ++ [a]) := by simp
  rw [h2, dropWhile_cons_false _ _ _ hb, ← h2, List.reverse_reverse]

theorem cleanCodeOf_bracket (c : Str) (h1 : pyStrip c = c)
    (h2 : ¬(c.head? = some '[' ∧ c.getLast? = some ']')) :
    cleanCodeOf ('[' :: (c ++ [']'])) = cleanCodeOf c := by
  unfold cleanCodeOf
  have hs : pyStrip ('[' :: (c ++ [']'])) = '[' :: (c ++ [']']) :=
    pyStrip_of_ends '[' ']' c (by decide) (by decide)
  rw [hs, h1]
  have hh : ('[' :: (c ++ [']'])).head? = some '[' := rfl
  have hl : ('[' :: (c ++ [']'])).getLast? = some ']' := by
    rw [show ('[' :: (c ++ [']'])) = ('[' :: c) ++ [']'] by simp]
    exact List.getLast?_concat _
  rw [if_pos ⟨hh, hl⟩, if_neg h2]
  have hd : (('[' :: (c ++ [']'])).drop 1).dropLast = c := by
    simp
  rw [hd, h1]

/-- Claim C9: `copy_description_cfg` is invariant under bracketing of the
game code: for a code with no surrounding whitespace that is not itself
of the form `[...]`, calling it with `[` + code + `]` looks up the same
`<code>.cfg` file and has the same result and effect as calling it with
the bare code. -/
theorem copy_description_cfg_bracket_invariant (c : Str) (st : DescState)
    (h1 : pyStrip c = c)
    (h2 : ¬(c.head? = some '[' ∧ c.getLast? = some ']')) :
    copy_description_cfg ('[' :: (c ++ [']'])) st = copy_description_cfg c st := by
  unfold copy_description_cfg
  rw [cleanCodeOf_bracket c h1 h2]

/-- Witness for C9 at a concrete code and state. -/
theorem copy_description_cfg_bracket_invariant_witness :
    pyStrip "SLUS_008.24".data = "SLUS_008.24".data ∧
    ¬(("SLUS_008.24".data : Str).head? = some '[' ∧
      ("SLUS_008.24".data : Str).getLast? = some ']') ∧
    copy_description_cfg ('[' :: ("SLUS_008.24".data ++ [']']))
        (DescState.mk [("SLUS_008.24.cfg".data, "Crash".data)] []) =
      copy_description_cfg "SLUS_008.24".data
        (DescState.mk [("SLUS_008.24.cfg".data, "Crash".data)] []) :=
  ⟨by decide, by decide,
    copy_description_cfg_bracket_invariant _ _ (by decide) (by decide)⟩


/-! ### Claim C3 -/

/-- Counterexample to claim C3 as stated: for the input `[].iso` a
bracketed group is present but empty; the claim's identifier would be
the empty group, while the program's truthiness test falls back to the
full base filename `[]`. -/
theorem process_game_identifier_empty_group_cex :
    (processGameNames "[].iso".data).base_name ≠
      ((firstBracket (splitextNT (ntBasename "[].iso".data)).1).getD
        (splitextNT (ntBasename "[].iso".data)).1) := by
  decide

/-- Claim C3 (amended): the canonical identifier of a processed game is
the first bracketed group of the extension-less base filename when one
is present and non-empty — an empty group falls back, like a missing
one, to the base filename itself; the identifier is the stem of every
generated asset name: the ELF `XX.<id>.ELF`, the save folder `<id>`,
and the artwork files `XX.<id>.ELF_COV<ext>` / `XX.<id>.ELF_LGO<ext>`. -/
theorem process_game_identifier_is_asset_stem
    (file_path cover_path logo_path : Str) :
    (processGameNames file_path).base_name =
      (match firstBracket (splitextNT (ntBasename file_path)).1 with
       | some g =>
         if g = [] then (splitextNT (ntBasename file_path)).1 else g
       | none => (splitextNT (ntBasename file_path)).1) ∧
    (processGameNames file_path).elf_name =
      "XX.".data ++ (processGameNames file_path).base_name ++ ".ELF".data ∧
    (processGameNames file_path).save_folder_name =
      (processGameNames file_path).base_name ∧
    save_cover_name (processGameNames file_path).base_name cover_path =
      "XX.".data ++ (processGameNames file_path).base_name ++
        ".ELF_COV".data ++ (splitextNT cover_path).2 ∧
    save_logo_name (processGameNames file_path).base_name logo_path =
      "XX.".data ++ (processGameNames file_path).base_name ++
        ".ELF_LGO".data ++ (splitextNT logo_path).2 := by
  refine ⟨?_, ?_, ?_, ?_, ?_⟩
  · simp only [processGameNames, pyOrElse]
    cases firstBracket (splitextNT (ntBasename file_path)).1 with
    | none => rfl
    | some g =>
      by_cases hg : g = [] <;> simp [hg]
  · simp [processGameNames]
  · simp [processGameNames]
  · simp [save_cover_name]
  · simp [save_logo_name]

/-! ### Claim C4 -/

/-- Counterexample to claim C4: for the input `A[B].iso` the canonical
code is `B`, but the key recorded in the ledger is the bracket-stripped
title `A`; the two differ, so the canonical code is not the ledger key. -/
theorem ledger_key_not_canonical_code_cex :
    (processGameNames "A[B].iso".data).conf_name ≠
      (processGameNames "A[B].iso".data).base_name := by
  have h1 : (splitextNT (ntBasename "A[B].iso".data)).1 = "A[B]".data := by
    decide
  have hc : (processGameNames "A[B].iso".data).conf_name = "A".data := by
    simp [processGameNames, h1, removeBrackets, bracketSplit]
    decide
  have hb : (processGameNames "A[B].iso".data).base_name = "B".data := by
    simp [processGameNames, h1]
    decide
  rw [hc, hb]
  decide

theorem removeBrackets_cons_ne (c : Char) (cs : Str) (h : c ≠ '[') :
    removeBrackets (c :: cs) = c :: removeBrackets cs := by
  rw [removeBrackets]
  simp [h]

theorem removeBrackets_append_clean (t r : Str) (h : '[' ∉ t) :
    removeBrackets (t ++ r) = t ++ removeBrackets r := by
  induction t with
  | nil => rfl
  | cons c cs ih =>
    simp only [List.mem_cons, not_or] at h
    rw [List.cons_append, removeBrackets_cons_ne c _ (fun hc => h.1 hc.symm),
      ih h.2, List.cons_append]

theorem bracketSplit_group (code r : Str) (h1 : ']' ∉ code)
    (h2 : '\n' ∉ code) :
    bracketSplit (code ++ ']' :: r) = some (code, r) := by
  induction code with
  | nil => simp [bracketSplit]
  | cons c cs ih =>
    simp only [List.mem_cons, not_or] at h1 h2
    rw [List.cons_append]
    rw [bracketSplit]
    rw [if_neg (fun hc => h1.1 hc.symm), if_neg (fun hc => h2.1 hc.symm)]
    rw [ih h1.2 h2.2]
    rfl

theorem removeBrackets_group (t code : Str) (ht : '[' ∉ t)
    (h1 : ']' ∉ code) (h2 : '\n' ∉ code) :
    removeBrackets (t ++ '[' :: (code ++ [']'])) = t := by
  rw [removeBrackets_append_clean t _ ht]
  rw [removeBrackets]
  simp only [if_pos rfl]
  rw [show code ++ [']'] = code ++ ']' :: ([] : Str) by simp]
  rw [bracketSplit_group code [] h1 h2]
  simp [removeBrackets]

/-- Claim C4 (amended): the key under which `process_game` records a game
in `conf_apps.cfg` is not the canonical bracketed code but `conf_name`:
the extension-less base filename with every bracketed group deleted and
surrounding whitespace stripped. In particular, for a base name of the
form `t[code]`, the recorded key is `t` stripped of whitespace. -/
theorem ledger_key_is_stripped_title (file_path t code : Str)
    (hg : (splitextNT (ntBasename file_path)).1 = t ++ '[' :: (code ++ [']']))
    (ht : '[' ∉ t) (h1 : ']' ∉ code) (h2 : '\n' ∉ code) :
    (processGameNames file_path).conf_name = pyStrip t := by
  simp only [processGameNames, hg]
  rw [removeBrackets_group t code ht h1 h2]

/-- Witness for the amended C4 at a concrete file name. -/
theorem ledger_key_is_stripped_title_witness :
    (splitextNT (ntBasename "Crash Bandicoot [SCUS_949.00].bin".data)).1 =
      "Crash Bandicoot ".data ++ '[' :: ("SCUS_949.00".data ++ [']']) ∧
    '[' ∉ "Crash Bandicoot ".data ∧ ']' ∉ "SCUS_949.00".data ∧
    '\n' ∉ "SCUS_949.00".data ∧
    (processGameNames "Crash Bandicoot [SCUS_949.00].bin".data).conf_name =
      pyStrip "Crash Bandicoot ".data :=
  ⟨by decide, by decide, by decide, by decide,
    ledger_key_is_stripped_title "Crash Bandicoot [SCUS_949.00].bin".data
      "Crash Bandicoot ".data "SCUS_949.00".data (by decide) (by decide)
      (by decide) (by decide)⟩


/-! ### Claim C8 -/

theorem dropWhile_all_append (p : Char → Bool) (t r : Str)
    (ht : ∀ c ∈ t, p c = true)
    (hr : ∀ c, r.head? = some c → p c = false) :
    List.dropWhile p (t ++ r) = r := by
  induction t with
  | nil =>
    cases r with
    | nil => rfl
    | cons a r' => exact dropWhile_cons_false p a r' (hr a rfl)
  | cons d t' ih =>
    have hd : p d = true := ht d (by simp)
    simp only [List.cons_append, List.dropWhile, hd]
    exact ih (fun c hc => ht c (by simp [hc]))

theorem dropWhile_head_false (p : Char → Bool) (l : Str) (c : Char)
    (cs : Str) (h : l.dropWhile p = c :: cs) : p c = false := by
  induction l with
  | nil => simp [List.dropWhile] at h
  | cons a as ih =>
    by_cases ha : p a = true
    · simp only [List.dropWhile, ha] at h
      exact ih h
    · simp only [Bool.not_eq_true] at ha
      rw [dropWhile_cons_false p a as ha] at h
      cases h
      exact ha

theorem takeWhile_mem (p : Char → Bool) (l : Str) (c : Char)
    (h : c ∈ l.takeWhile p) : p c = true := by
  induction l with
  | nil => simp [List.takeWhile] at h
  | cons a as ih =>
    by_cases ha : p a = true
    · simp only [List.takeWhile, ha] at h
      rcases List.mem_cons.mp h with h1 | h2
      · rwa [h1]
      · exact ih h2
    · simp only [Bool.not_eq_true] at ha
      simp [List.takeWhile, ha] at h

theorem pctSearch_cons_nondigit (c : Char) (cs : Str)
    (hc : pyIsDigit c = false) : pctSearch (c :: cs) = pctSearch cs := by
  simp [pctSearch, hc]

theorem pctSearch_cons_pct (c : Char) (cs rest : Str) (hc : pyIsDigit c = true)
    (hd : List.dropWhile pyIsDigit (c :: cs) = '%' :: rest) :
    pctSearch (c :: cs) =
      some (digitsVal (List.takeWhile pyIsDigit (c :: cs))) := by
  simp only [pctSearch, hc, if_true, hd]

theorem pctSearch_cons_nopct (c : Char) (cs : Str) (hc : pyIsDigit c = true)
    (hr : (List.dropWhile pyIsDigit (c :: cs)).head? ≠ some '%') :
    pctSearch (c :: cs) = pctSearch cs := by
  simp only [pctSearch, hc, if_true]
  split
  · rename_i heq
    exact absurd (by rw [heq]; rfl) hr
  · rfl

theorem firstPctRun_nil : firstPctRun [] = none := by
  simp [firstPctRun]

theorem firstPctRun_cons_nondigit (c : Char) (cs : Str)
    (hc : pyIsDigit c = false) : firstPctRun (c :: cs) = firstPctRun cs := by
  rw [firstPctRun]
  simp [hc]

theorem firstPctRun_cons_pct (c : Char) (cs rest : Str) (hc : pyIsDigit c = true)
    (hd : List.dropWhile pyIsDigit (c :: cs) = '%' :: rest) :
    firstPctRun (c :: cs) = some (List.takeWhile pyIsDigit (c :: cs)) := by
  rw [firstPctRun]
  simp only [hc, reduceDIte, hd]

theorem firstPctRun_cons_nopct (c : Char) (cs : Str) (hc : pyIsDigit c = true)
    (hr : (List.dropWhile pyIsDigit (c :: cs)).head? ≠ some '%') :
    firstPctRun (c :: cs) =
      firstPctRun (List.dropWhile pyIsDigit (c :: cs)) := by
  rw [firstPctRun]
  simp only [hc, reduceDIte]
  split
  · rename_i heq
    exact absurd (by rw [heq]; rfl) hr
  · rfl

theorem pctSearch_skip_run (t r : Str) (ht : ∀ c ∈ t, pyIsDigit c = true)
    (hr1 : ∀ c, r.head? = some c → pyIsDigit c = false)
    (hr2 : r.head? ≠ some '%') :
    pctSearch (t ++ r) = pctSearch r := by
  induction t with
  | nil => rfl
  | cons d t' ih =>
    have hd : pyIsDigit d = true := ht d (by simp)
    have hdrop : List.dropWhile pyIsDigit (d :: (t' ++ r)) = r := by
      rw [show d :: (t' ++ r) = (d :: t') ++ r by simp]
      exact dropWhile_all_append _ _ _
        (fun c hc => ht c hc) hr1
    rw [List.cons_append,
      pctSearch_cons_nopct d (t' ++ r) hd (by rw [hdrop]; exact hr2)]
    exact ih (fun c hc => ht c (by simp [hc]))

theorem pctSearch_eq_firstPctRun (s : Str) :
    pctSearch s = (firstPctRun s).map digitsVal := by
  generalize hn : s.length = n
  induction n using Nat.strong_induction_on generalizing s with
  | _ n ih =>
  cases s with
  | nil => simp [pctSearch, firstPctRun_nil]
  | cons c cs =>
    subst hn
    by_cases hc : pyIsDigit c = true
    · cases hr : List.dropWhile pyIsDigit (c :: cs) with
      | nil =>
        have h1 : pctSearch (c :: cs) = pctSearch cs := by
          refine pctSearch_cons_nopct c cs hc ?_
          rw [hr]; simp
        have h2 : firstPctRun (c :: cs) = firstPctRun [] := by
          rw [firstPctRun_cons_nopct c cs hc (by rw [hr]; simp), hr]
        have hcs : ∀ x ∈ cs, pyIsDigit x = true := by
          intro x hx
          have hall : List.dropWhile pyIsDigit cs = [] := by
            have : List.dropWhile pyIsDigit (c :: cs)
                = List.dropWhile pyIsDigit cs := by
              simp [List.dropWhile, hc]
            rw [← this, hr]
          have := List.takeWhile_append_dropWhile pyIsDigit cs
          rw [hall, List.append_nil] at this
          exact takeWhile_mem pyIsDigit cs x (by rw [this]; exact hx)
        have h3 : pctSearch cs = none := by
          have := pctSearch_skip_run cs [] hcs (by intro c h; simp at h)
            (by simp)
          simpa using this
        rw [h1, h2, h3, firstPctRun_nil]
        rfl
      | cons a rest =>
        by_cases ha : a = '%'
        · subst ha
          rw [pctSearch_cons_pct c cs rest hc hr,
            firstPctRun_cons_pct c cs rest hc hr]
          rfl
        · have hhead : (List.dropWhile pyIsDigit (c :: cs)).head?
              ≠ some '%' := by
            rw [hr]
            simp [ha]
          rw [pctSearch_cons_nopct c cs hc hhead,
            firstPctRun_cons_nopct c cs hc hhead, hr]
          have hsplit : List.takeWhile pyIsDigit cs
              ++ List.dropWhile pyIsDigit cs = cs :=
            List.takeWhile_append_dropWhile pyIsDigit cs
          have hdcs : List.dropWhile pyIsDigit cs = a :: rest := by
            have : List.dropWhile pyIsDigit (c :: cs)
                = List.dropWhile pyIsDigit cs := by
              simp [List.dropWhile, hc]
            rw [← this, hr]
          have hskip : pctSearch cs = pctSearch (a :: rest) := by
            rw [← hsplit, hdcs]
            refine pctSearch_skip_run _ _
              (fun x hx => takeWhile_mem pyIsDigit cs x hx) ?_ ?_
            · intro x hx
              cases hx
              exact dropWhile_head_false pyIsDigit cs a rest hdcs
            · simp [ha]
          rw [hskip]
          refine ih (a :: rest).length ?_ (a :: rest) rfl
          have : (a :: rest).length ≤ cs.length := by
            rw [← hdcs]
            have : ∀ (l : Str),
                (l.dropWhile pyIsDigit).length ≤ l.length := by
              intro l
              induction l with
              | nil => simp [List.dropWhile]
              | cons x xs ihx =>
                by_cases hx : pyIsDigit x = true
                · simp only [List.dropWhile, hx, List.length_cons]
                  omega
                · simp only [Bool.not_eq_true] at hx
                  rw [dropWhile_cons_false _ _ _ hx]
            exact this cs
          simp only [List.length_cons] at this ⊢
          omega
    · simp only [Bool.not_eq_true] at hc
      rw [pctSearch_cons_nondigit c cs hc, firstPctRun_cons_nondigit c cs hc]
      exact ih cs.length (by simp) cs rfl

/-- Claim C8: when a stripped output line admits a digit run immediately
followed by `'%'`, the reported percentage is the integer value of the
first such run, and the progress callback fires for that line exactly
when this percentage differs from the last reported one. -/
theorem chd_progress_first_pct_run (last : Nat) (raw : Str) (run : Str)
    (h : firstPctRun (pyStrip raw) = some run) :
    chdProgressStep last raw =
      (if digitsVal run = last then last else digitsVal run,
       if digitsVal run = last then none else some (digitsVal run)) := by
  have hne : (pyStrip raw).isEmpty = false := by
    cases hsr : pyStrip raw with
    | nil => rw [hsr, firstPctRun_nil] at h; cases h
    | cons a l => simp
  have hp : pctSearch (pyStrip raw) = some (digitsVal run) := by
    rw [pctSearch_eq_firstPctRun, h]
    rfl
  simp only [chdProgressStep, hne, Bool.false_eq_true, if_false, hp]
  by_cases he : digitsVal run = last <;> simp [he]

/-- Witness for C8 at a concrete progress line. -/
theorem chd_progress_first_pct_run_witness :
    firstPctRun (pyStrip "  Extracting, 67% complete...  ".data)
      = some "67".data ∧
    chdProgressStep 0 "  Extracting, 67% complete...  ".data
      = (67, some 67) := by
  have hs : pyStrip "  Extracting, 67% complete...  ".data
      = "Extracting, 67% complete...".data := by decide
  have h : firstPctRun (pyStrip "  Extracting, 67% complete...  ".data)
      = some "67".data := by
    rw [hs]
    simp only [firstPctRun]
    decide
  refine ⟨h, ?_⟩
  rw [chd_progress_first_pct_run 0 _ _ h]
  decide

/-! ### Claim C6 -/

theorem lookupEntry_replace_other (n m : String) (t : FSTree)
    (es : List (String × FSTree)) (h : n ≠ m) :
    lookupEntry m (replaceEntry n t es) = lookupEntry m es := by
  induction es with
  | nil => rfl
  | cons e es ih =>
    obtain ⟨k, u⟩ := e
    by_cases hk : k = n
    · subst hk
      simp only [replaceEntry, if_pos rfl]
      simp only [lookupEntry, if_neg h]
    · simp only [replaceEntry, if_neg hk]
      by_cases hm : k = m
      · simp only [lookupEntry, if_pos hm]
      · simp only [lookupEntry, if_neg hm, ih]

theorem lookupEntry_replace_same (n : String) (t u : FSTree)
    (es : List (String × FSTree)) (h : lookupEntry n es = some u) :
    lookupEntry n (replaceEntry n t es) = some t := by
  induction es with
  | nil => simp [lookupEntry] at h
  | cons e es ih =>
    obtain ⟨k, u'⟩ := e
    by_cases hk : k = n
    · subst hk
      simp only [replaceEntry, if_pos rfl]
      simp [lookupEntry]
    · simp only [lookupEntry, if_neg hk] at h
      simp only [replaceEntry, if_neg hk]
      simp only [lookupEntry, if_neg hk]
      exact ih h

theorem lookupEntry_append_other (m n : String) (t : FSTree)
    (es : List (String × FSTree)) (h : n ≠ m) :
    lookupEntry m (es ++ [(n, t)]) = lookupEntry m es := by
  induction es with
  | nil => simp [lookupEntry, if_neg h]
  | cons e es ih =>
    obtain ⟨k, u⟩ := e
    by_cases hm : k = m
    · simp [lookupEntry, if_pos hm]
    · simp only [List.cons_append, lookupEntry, if_neg hm, List.append_eq, ih]

theorem copyEntry_other (n m : String) (t : FSTree)
    (dst dst' : List (String × FSTree)) (h : n ≠ m)
    (hc : copyEntry n t dst = some dst') :
    lookupEntry m dst' = lookupEntry m dst := by
  cases t with
  | dir srcEs =>
    cases hl : lookupEntry n dst with
    | none =>
      simp only [copyEntry, hl] at hc
      cases hc
      exact lookupEntry_append_other m n _ dst h
    | some u =>
      cases u with
      | dir dEs =>
        simp only [copyEntry, hl] at hc
        cases hct : copyTree (FSTree.dir srcEs) (FSTree.dir dEs) with
        | none => rw [hct] at hc; simp at hc
        | some r =>
          rw [hct] at hc
          simp only [Option.map_some'] at hc
          cases hc
          exact lookupEntry_replace_other n m _ dst h
      | file c =>
        simp only [copyEntry, hl] at hc
        cases hc
        rfl
  | file c =>
    cases hl : lookupEntry n dst with
    | none =>
      simp only [copyEntry, hl] at hc
      cases hc
      exact lookupEntry_append_other m n _ dst h
    | some u =>
      cases u with
      | dir dEs =>
        simp only [copyEntry, hl] at hc
        simp at hc
      | file c' =>
        simp only [copyEntry, hl] at hc
        cases hc
        exact lookupEntry_replace_other n m _ dst h

theorem copyEntries_frame (srcEs : List (String × FSTree)) (m : String) :
    ∀ (dstEs resEs : List (String × FSTree)),
      m ∉ srcEs.map Prod.fst →
      copyEntries srcEs dstEs = some resEs →
      lookupEntry m resEs = lookupEntry m dstEs := by
  induction srcEs with
  | nil =>
    intro dstEs resEs _ hres
    rw [copyEntries] at hres
    cases hres
    rfl
  | cons e rest ih =>
    intro dstEs resEs h hres
    obtain ⟨n, t⟩ := e
    simp only [List.map_cons, List.mem_cons, not_or] at h
    rw [copyEntries] at hres
    cases hce : copyEntry n t dstEs with
    | none => rw [hce] at hres; cases hres
    | some dst' =>
      rw [hce] at hres
      rw [ih dst' resEs h.2 hres,
        copyEntry_other n m t dstEs dst' (fun he => h.1 he.symm) hce]

theorem copyEntries_found (srcEs : List (String × FSTree)) (n : String)
    (sEs : List (String × FSTree))
    (hnodup : (srcEs.map Prod.fst).Nodup)
    (hs : lookupEntry n srcEs = some (FSTree.dir sEs)) :
    ∀ (dstEs dEs resEs : List (String × FSTree)),
      lookupEntry n dstEs = some (FSTree.dir dEs) →
      copyEntries srcEs dstEs = some resEs →
      ∃ subEs, copyEntries sEs dEs = some subEs ∧
        lookupEntry n resEs = some (FSTree.dir subEs) := by
  induction srcEs with
  | nil => simp [lookupEntry] at hs
  | cons e rest ih =>
    intro dstEs dEs resEs hd hres
    obtain ⟨k, t⟩ := e
    rw [copyEntries] at hres
    by_cases hk : k = n
    · subst hk
      simp only [lookupEntry, if_pos rfl] at hs
      cases hs
      simp only [List.map_cons, List.nodup_cons] at hnodup
      have hstep : copyEntry k (FSTree.dir sEs) dstEs
          = (copyEntries sEs dEs).map
              (fun subEs => replaceEntry k (FSTree.dir subEs) dstEs) := by
        simp only [copyEntry, hd, copyTree, Option.map_map]
        rfl
      rw [hstep] at hres
      cases hsub : copyEntries sEs dEs with
      | none => rw [hsub] at hres; simp at hres
      | some subEs =>
        rw [hsub] at hres
        simp only [Option.map_some'] at hres
        refine ⟨subEs, rfl, ?_⟩
        rw [copyEntries_frame rest k _ resEs hnodup.1 hres]
        exact lookupEntry_replace_same k _ _ dstEs hd
    · simp only [lookupEntry, if_neg hk] at hs
      simp only [List.map_cons, List.nodup_cons] at hnodup
      cases hce : copyEntry k t dstEs with
      | none => rw [hce] at hres; cases hres
      | some dst' =>
        rw [hce] at hres
        exact ih hnodup.2 hs dst' dEs resEs
          (by rw [copyEntry_other k n t dstEs dst' hk hce, hd]) hres

/-- Claim C6: in a `copy_tree` merge that completes without hitting an
unmodelled file/directory collision, a source subdirectory that already
exists at the destination is entered and merged recursively, not
replaced: the result at that name is the recursive merge of the two
directories, and every entry present only at the destination side of
the merged directory is still there, unchanged. -/
theorem copy_tree_merges_existing_dirs
    (srcEs dstEs sEs dEs resEs : List (String × FSTree)) (n m : String)
    (hnodup : (srcEs.map Prod.fst).Nodup)
    (hs : lookupEntry n srcEs = some (FSTree.dir sEs))
    (hd : lookupEntry n dstEs = some (FSTree.dir dEs))
    (hm : m ∉ sEs.map Prod.fst)
    (hres : copyEntries srcEs dstEs = some resEs) :
    ∃ subEs, copyEntries sEs dEs = some subEs ∧
      lookupEntry n resEs = some (FSTree.dir subEs) ∧
      lookupEntry m subEs = lookupEntry m dEs := by
  obtain ⟨subEs, hsub, hlook⟩ :=
    copyEntries_found srcEs n sEs hnodup hs dstEs dEs resEs hd hres
  exact ⟨subEs, hsub, hlook, copyEntries_frame sEs m dEs subEs hm hsub⟩

/-- Witness for C6: source `POPS/SLOT0.VMC` merged into a destination
that already has `POPS/keep.bin`; the merge completes and the
destination-only file survives. -/
theorem copy_tree_merges_existing_dirs_witness :
    ((([("POPS", FSTree.dir [("SLOT0.VMC", FSTree.file ['a'])])] :
        List (String × FSTree)).map Prod.fst).Nodup ∧
      lookupEntry "POPS"
          [("POPS", FSTree.dir [("SLOT0.VMC", FSTree.file ['a'])])]
        = some (FSTree.dir [("SLOT0.VMC", FSTree.file ['a'])]) ∧
      lookupEntry "POPS"
          [("POPS", FSTree.dir [("keep.bin", FSTree.file ['k'])])]
        = some (FSTree.dir [("keep.bin", FSTree.file ['k'])]) ∧
      "keep.bin" ∉
        ([("SLOT0.VMC", FSTree.file ['a'])] :
          List (String × FSTree)).map Prod.fst ∧
      copyEntries [("POPS", FSTree.dir [("SLOT0.VMC", FSTree.file ['a'])])]
          [("POPS", FSTree.dir [("keep.bin", FSTree.file ['k'])])]
        = some [("POPS", FSTree.dir [("keep.bin", FSTree.file ['k']),
            ("SLOT0.VMC", FSTree.file ['a'])])]) ∧
    (∃ subEs,
      copyEntries [("SLOT0.VMC", FSTree.file ['a'])]
          [("keep.bin", FSTree.file ['k'])] = some subEs ∧
      lookupEntry "POPS"
          [("POPS", FSTree.dir [("keep.bin", FSTree.file ['k']),
            ("SLOT0.VMC", FSTree.file ['a'])])]
        = some (FSTree.dir subEs) ∧
      lookupEntry "keep.bin" subEs
        = lookupEntry "keep.bin" [("keep.bin", FSTree.file ['k'])]) :=
  ⟨⟨by simp, rfl, rfl, by simp,
      by simp [copyEntries, copyEntry, copyTree, lookupEntry, replaceEntry]⟩,
    copy_tree_merges_existing_dirs
      [("POPS", FSTree.dir [("SLOT0.VMC", FSTree.file ['a'])])]
      [("POPS", FSTree.dir [("keep.bin", FSTree.file ['k'])])]
      [("SLOT0.VMC", FSTree.file ['a'])] [("keep.bin", FSTree.file ['k'])]
      [("POPS", FSTree.dir [("keep.bin", FSTree.file ['k']),
        ("SLOT0.VMC", FSTree.file ['a'])])] "POPS" "keep.bin"
      (by simp) rfl rfl (by simp)
      (by simp [copyEntries, copyEntry, copyTree, lookupEntry,
        replaceEntry])⟩

/-! ### Round trips between file contents and lines -/

theorem splitAux_closed_cons (t : Str) (ht : '\n' ∉ t) :
    ∀ (acc r : Str), splitLinesAux (t ++ '\n' :: r) acc
      = ((acc.reverse ++ t) ++ ['\n']) :: splitLinesAux r [] := by
  induction t with
  | nil =>
    intro acc r
    simp [splitLinesAux]
  | cons c cs ih =>
    intro acc r
    simp only [List.mem_cons, not_or] at ht
    have hc : c ≠ '\n' := fun h => ht.1 h.symm
    simp only [List.cons_append, splitLinesAux, if_neg hc, List.append_eq]
    rw [ih ht.2]
    simp

theorem splitLines_closed_cons (t r : Str) (ht : '\n' ∉ t) :
    splitLines (t ++ '\n' :: r) = (t ++ ['\n']) :: splitLines r := by
  unfold splitLines
  rw [splitAux_closed_cons t ht [] r]
  simp

theorem splitAux_open (t : Str) (ht : '\n' ∉ t) :
    ∀ acc : Str, acc.reverse ++ t ≠ [] →
      splitLinesAux t acc = [acc.reverse ++ t] := by
  induction t with
  | nil =>
    intro acc hne
    simp only [List.append_nil] at hne ⊢
    simp only [splitLinesAux]
    rw [if_neg]
    simpa using fun h => hne (by simp [h])
  | cons c cs ih =>
    intro acc hne
    simp only [List.mem_cons, not_or] at ht
    have hc : c ≠ '\n' := fun h => ht.1 h.symm
    simp only [splitLinesAux, if_neg hc]
    rw [ih ht.2 (c :: acc) (by simp)]
    simp

theorem splitLines_open (t : Str) (ht : OpenLine t) : splitLines t = [t] := by
  unfold splitLines
  rw [splitAux_open t ht.2 [] (by simpa using ht.1)]
  simp

theorem joinLines_append (a b : List Str) :
    joinLines (a ++ b) = joinLines a ++ joinLines b := by
  induction a with
  | nil => rfl
  | cons l ls ih => simp [joinLines, ih]

theorem roundtrip_closed (ls : List Str) (h : AllClosed ls) :
    splitLines (joinLines ls) = ls := by
  induction ls with
  | nil => rfl
  | cons l ls ih =>
    obtain ⟨t, hts, hte⟩ := h l (by simp)
    subst hte
    rw [joinLines, show (t ++ ['\n']) ++ joinLines ls
        = t ++ '\n' :: joinLines ls by simp]
    rw [splitLines_closed_cons t _ hts]
    rw [ih (fun x hx => h x (by simp [hx]))]

theorem roundtrip_closed_open (ls : List Str) (o : Str) (h : AllClosed ls)
    (ho : OpenLine o) : splitLines (joinLines ls ++ o) = ls ++ [o] := by
  induction ls with
  | nil =>
    simp only [joinLines, List.nil_append]
    exact splitLines_open o ho
  | cons l ls ih =>
    obtain ⟨t, hts, hte⟩ := h l (by simp)
    subst hte
    rw [joinLines, show ((t ++ ['\n']) ++ joinLines ls) ++ o
        = t ++ '\n' :: (joinLines ls ++ o) by simp]
    rw [splitLines_closed_cons t _ hts]
    rw [ih (fun x hx => h x (by simp [hx]))]
    simp

theorem shape_cons (h : Str) (X : List Str) (hc : ClosedLine h)
    (hX : AllClosed X ∨ ∃ init o, X = init ++ [o] ∧ AllClosed init ∧ OpenLine o) :
    AllClosed (h :: X) ∨
      ∃ init o, h :: X = init ++ [o] ∧ AllClosed init ∧ OpenLine o := by
  rcases hX with hX | ⟨init, o, hXe, hai, hoo⟩
  · left
    intro l hl
    rcases List.mem_cons.mp hl with h1 | h2
    · rwa [h1]
    · exact hX l h2
  · right
    refine ⟨h :: init, o, by simp [hXe], ?_, hoo⟩
    intro l hl
    rcases List.mem_cons.mp hl with h1 | h2
    · rwa [h1]
    · exact hai l h2

theorem splitAux_shape (s : Str) :
    ∀ acc : Str, '\n' ∉ acc →
      AllClosed (splitLinesAux s acc) ∨
      ∃ init o, splitLinesAux s acc = init ++ [o] ∧
        AllClosed init ∧ OpenLine o := by
  induction s with
  | nil =>
    intro acc hacc
    by_cases he : acc.isEmpty
    · left
      simp only [splitLinesAux, if_pos he]
      intro l hl
      simp at hl
    · right
      refine ⟨[], acc.reverse, ?_, ?_, ?_⟩
      · simp only [splitLinesAux]
        rw [if_neg he]
        simp
      · intro l hl; simp at hl
      · exact ⟨fun h => he (by simp [List.reverse_eq_nil_iff.mp h]),
          by simpa using hacc⟩
  | cons c cs ih =>
    intro acc hacc
    by_cases hc : c = '\n'
    · subst hc
      simp only [splitLinesAux, if_pos rfl]
      refine shape_cons _ _ ⟨acc.reverse, by simpa using hacc, rfl⟩ ?_
      exact ih [] (by simp)
    · simp only [splitLinesAux, if_neg hc]
      exact ih (c :: acc) (by simp [hacc, Ne.symm hc])

theorem splitLines_shape (s : Str) :
    AllClosed (splitLines s) ∨
      ∃ init o, splitLines s = init ++ [o] ∧ AllClosed init ∧ OpenLine o :=
  splitAux_shape s [] (by simp)

/-! ### Lemmas about replacement and first-match search -/

theorem mkEntry_closed (k e : Str) (hk : '\n' ∉ k) (he : '\n' ∉ e) :
    ClosedLine (mkEntry k e) := by
  refine ⟨k ++ "=mass:/".data ++ e, ?_, by simp [mkEntry]⟩
  intro h
  rcases List.mem_append.mp h with h' | h'
  · rcases List.mem_append.mp h' with h'' | h''
    · exact hk h''
    · simp at h''
  · exact he h'

theorem any_map_replace (p : Str → Bool) (entry : Str) (ls : List Str)
    (hp : p entry = true) (h : ls.any p = true) :
    (ls.map (fun l => if p l then entry else l)).any p = true := by
  rcases List.any_eq_true.mp h with ⟨x, hx, hpx⟩
  refine List.any_eq_true.mpr ⟨entry, ?_, hp⟩
  refine List.mem_map.mpr ⟨x, hx, ?_⟩
  simp [hpx]

theorem AllClosed_map_replace (p : Str → Bool) (entry : Str) (ls : List Str)
    (h : AllClosed ls) (hc : ClosedLine entry) :
    AllClosed (ls.map (fun l => if p l then entry else l)) := by
  intro l hl
  rcases List.mem_map.mp hl with ⟨x, hx, hxe⟩
  by_cases hpx : p x = true
  · rw [← hxe]; simpa [hpx] using hc
  · rw [← hxe]
    simp only [Bool.not_eq_true] at hpx
    simpa [hpx] using h x hx

theorem firstMatch_map_replace (p : Str → Bool) (entry : Str) (ls : List Str)
    (hp : p entry = true) (h : ls.any p = true) :
    firstMatch p (ls.map (fun l => if p l then entry else l)) = some entry := by
  induction ls with
  | nil => simp at h
  | cons l ls ih =>
    by_cases hl : p l = true
    · simp [firstMatch, hl, hp]
    · simp only [Bool.not_eq_true] at hl
      simp only [List.any_cons, hl, Bool.false_or] at h
      simp [firstMatch, hl, ih h]

theorem firstMatch_append_no_match (p : Str → Bool) (ls r : List Str)
    (h : ls.any p = false) : firstMatch p (ls ++ r) = firstMatch p r := by
  induction ls with
  | nil => rfl
  | cons l ls ih =>
    simp only [List.any_cons, Bool.or_eq_false_iff] at h
    simp [firstMatch, h.1, ih h.2]

theorem firstMatch_append_match (p : Str → Bool) (ls r : List Str)
    (h : ls.any p = true) : firstMatch p (ls ++ r) = firstMatch p ls := by
  induction ls with
  | nil => simp at h
  | cons l ls ih =>
    by_cases hl : p l = true
    · simp [firstMatch, hl]
    · simp only [Bool.not_eq_true] at hl
      simp only [List.any_cons, hl, Bool.false_or] at h
      simp [firstMatch, hl, ih h]

theorem AllClosed_append (a b : List Str) (ha : AllClosed a)
    (hb : AllClosed b) : AllClosed (a ++ b) := by
  intro l hl
  rcases List.mem_append.mp hl with h | h
  · exact ha l h
  · exact hb l h

/-! ### Carriage-return-free contents and the read translation -/

theorem translate_no_cr (s : Str) : '\r' ∉ translateNewlines s := by
  generalize hn : s.length = n
  induction n using Nat.strong_induction_on generalizing s with
  | _ n ih =>
  subst hn
  rw [translateNewlines.eq_def]
  split
  · simp
  · rename_i cs
    intro hmem
    rcases List.mem_cons.mp hmem with h | h
    · simp at h
    · exact ih cs.length (by simp only [List.length_cons]; omega) cs rfl h
  · rename_i cs hno
    intro hmem
    rcases List.mem_cons.mp hmem with h | h
    · simp at h
    · exact ih cs.length (by simp only [List.length_cons]; omega) cs rfl h
  · rename_i c cs hno1 hno2
    intro hmem
    rcases List.mem_cons.mp hmem with h | h
    · exact hno2 h.symm
    · exact ih cs.length (by simp only [List.length_cons]; omega) cs rfl h

theorem translate_id (s : Str) (h : '\r' ∉ s) : translateNewlines s = s := by
  induction s with
  | nil => rfl
  | cons c cs ih =>
    simp only [List.mem_cons, not_or] at h
    rw [translateNewlines.eq_def]
    split
    · rename_i heq
      simp at heq
    · rename_i heq
      rw [List.cons.injEq] at heq
      exact absurd heq.1.symm h.1
    · rename_i heq
      rw [List.cons.injEq] at heq
      exact absurd heq.1.symm h.1
    · rename_i heq
      rw [List.cons.injEq] at heq
      obtain ⟨h1, h2⟩ := heq
      rw [← h1, ← h2]
      rw [ih h.2]

theorem joinLines_splitAux (s : Str) :
    ∀ acc : Str, joinLines (splitLinesAux s acc) = acc.reverse ++ s := by
  induction s with
  | nil =>
    intro acc
    by_cases he : acc.isEmpty
    · simp only [splitLinesAux, if_pos he]
      have : acc = [] := by simpa using he
      simp [this, joinLines]
    · simp only [splitLinesAux, if_neg he]
      simp [joinLines]
  | cons c cs ih =>
    intro acc
    by_cases hc : c = '\n'
    · subst hc
      simp only [splitLinesAux, if_pos rfl, joinLines]
      rw [ih []]
      simp
    · simp only [splitLinesAux, if_neg hc]
      rw [ih (c :: acc)]
      simp

theorem joinLines_splitLines (s : Str) : joinLines (splitLines s) = s := by
  simpa using joinLines_splitAux s []

theorem mem_joinLines_of (ls : List Str) (l : Str) (c : Char)
    (hl : l ∈ ls) (hc : c ∈ l) : c ∈ joinLines ls := by
  induction ls with
  | nil => simp at hl
  | cons x xs ih =>
    rw [joinLines]
    rcases List.mem_cons.mp hl with h | h
    · subst h
      exact List.mem_append.mpr (Or.inl hc)
    · exact List.mem_append.mpr (Or.inr (ih h))

theorem exists_mem_joinLines (ls : List Str) (c : Char)
    (hc : c ∈ joinLines ls) : ∃ l ∈ ls, c ∈ l := by
  induction ls with
  | nil => simp [joinLines] at hc
  | cons x xs ih =>
    rw [joinLines] at hc
    rcases List.mem_append.mp hc with h | h
    · exact ⟨x, by simp, h⟩
    · obtain ⟨l, hl, hcl⟩ := ih h
      exact ⟨l, by simp [hl], hcl⟩

theorem splitLines_no_cr (t l : Str) (ht : '\r' ∉ t)
    (hl : l ∈ splitLines t) : '\r' ∉ l :=
  fun hc => ht (by
    rw [← joinLines_splitLines t]
    exact mem_joinLines_of _ _ _ hl hc)

theorem pyReadlines_no_cr (content l : Str) (hl : l ∈ pyReadlines content) :
    '\r' ∉ l :=
  splitLines_no_cr _ _ (translate_no_cr content) hl

theorem mkEntry_no_cr (k e : Str) (hk : '\r' ∉ k) (he : '\r' ∉ e) :
    '\r' ∉ mkEntry k e := by
  intro h
  rcases List.mem_append.mp h with h' | h'
  · rcases List.mem_append.mp h' with h'' | h''
    · rcases List.mem_append.mp h'' with h3 | h3
      · exact hk h3
      · simp at h3
    · exact he h''
  · simp at h'

theorem updContent_no_cr (k e : Str) (ls : List Str)
    (hls : ∀ l ∈ ls, '\r' ∉ l) (hk : '\r' ∉ k) (he : '\r' ∉ e) :
    '\r' ∉ joinLines (updConfLines k e ls) := by
  intro h
  obtain ⟨l, hl, hcl⟩ := exists_mem_joinLines _ _ h
  rw [updConfLines_spec] at hl
  by_cases hany : ls.any (startsWith (keyPat k)) = true
  · rw [if_pos hany] at hl
    rcases List.mem_map.mp hl with ⟨x, hx, hxe⟩
    by_cases hpx : startsWith (keyPat k) x = true
    · rw [← hxe] at hcl
      simp only [hpx, if_true] at hcl
      exact mkEntry_no_cr k e hk he hcl
    · rw [← hxe] at hcl
      simp only [Bool.not_eq_true] at hpx
      simp only [hpx, Bool.false_eq_true, if_false] at hcl
      exact hls x hx hcl
  · rw [if_neg hany] at hl
    rcases List.mem_append.mp hl with h' | h'
    · exact hls l h' hcl
    · rw [List.mem_singleton.mp h'] at hcl
      exact mkEntry_no_cr k e hk he hcl

/-! ### Claim C7 -/

theorem updConf_shape (k e L : Str) (hk : '\n' ∉ k) (he : '\n' ∉ e)
    (hkr : '\r' ∉ k) (her : '\r' ∉ e) :
    AllClosed (pyReadlines (updConf k e L)) ∨
    ((∃ init o, pyReadlines (updConf k e L) = init ++ [o] ∧
        AllClosed init ∧ OpenLine o) ∧
      (pyReadlines (updConf k e L)).any (startsWith (keyPat k)) = true) := by
  have hent : startsWith (keyPat k) (mkEntry k e) = true := startsWith_mkEntry k e
  have hcl : ClosedLine (mkEntry k e) := mkEntry_closed k e hk he
  have hnc : '\r' ∉ updConf k e L := by
    unfold updConf
    exact updContent_no_cr k e _ (fun l hl => pyReadlines_no_cr L l hl) hkr her
  have hred : pyReadlines (updConf k e L) = splitLines (updConf k e L) := by
    unfold pyReadlines
    rw [translate_id _ hnc]
  rw [hred]
  unfold updConf pyReadlines
  rcases splitLines_shape (translateNewlines L) with hC | ⟨init, o, hEq, hAI, hO⟩
  · by_cases hany : (splitLines (translateNewlines L)).any (startsWith (keyPat k)) = true
    · rw [updConfLines_spec, if_pos hany,
        roundtrip_closed _ (AllClosed_map_replace _ _ _ hC hcl)]
      left
      exact AllClosed_map_replace _ _ _ hC hcl
    · rw [updConfLines_spec, if_neg hany,
        roundtrip_closed _ (AllClosed_append _ _ hC
          (fun l hl => by rw [List.mem_singleton.mp hl]; exact hcl))]
      left
      exact AllClosed_append _ _ hC
        (fun l hl => by rw [List.mem_singleton.mp hl]; exact hcl)
  · by_cases hany : (splitLines (translateNewlines L)).any (startsWith (keyPat k)) = true
    · rw [updConfLines_spec, if_pos hany, hEq, List.map_append]
      by_cases hpo : startsWith (keyPat k) o = true
      · rw [show List.map (fun l => if startsWith (keyPat k) l = true
            then mkEntry k e else l) [o] = [mkEntry k e] from by simp [hpo]]
        have hac : AllClosed (List.map (fun l =>
            if startsWith (keyPat k) l = true then mkEntry k e else l) init
              ++ [mkEntry k e]) :=
          AllClosed_append _ _ (AllClosed_map_replace _ _ _ hAI hcl)
            (fun l hl => by rw [List.mem_singleton.mp hl]; exact hcl)
        rw [roundtrip_closed _ hac]
        left
        exact hac
      · rw [show List.map (fun l => if startsWith (keyPat k) l = true
            then mkEntry k e else l) [o] = [o] from by simp [hpo]]
        have hacl : AllClosed (List.map (fun l =>
            if startsWith (keyPat k) l = true then mkEntry k e else l) init) :=
          AllClosed_map_replace _ _ _ hAI hcl
        rw [show joinLines (List.map (fun l =>
              if startsWith (keyPat k) l = true then mkEntry k e else l) init
                ++ [o])
            = joinLines (List.map (fun l =>
              if startsWith (keyPat k) l = true then mkEntry k e else l) init)
                ++ o from by
          rw [joinLines_append]; simp [joinLines]]
        rw [roundtrip_closed_open _ _ hacl hO]
        right
        constructor
        · exact ⟨_, o, rfl, hacl, hO⟩
        · have hIany : init.any (startsWith (keyPat k)) = true := by
            rw [hEq, List.any_append] at hany
            simp only [List.any_cons, List.any_nil, Bool.or_false] at hany
            rcases Bool.or_eq_true_iff.mp hany with h | h
            · exact h
            · exact absurd h hpo
          rw [List.any_append, any_map_replace _ _ _ hent hIany]
          simp
    · rw [updConfLines_spec, if_neg hany, hEq]
      obtain ⟨u, hu1, hu2⟩ := hcl
      have hm : ClosedLine (o ++ mkEntry k e) := by
        refine ⟨o ++ u, ?_, by rw [hu2]; simp⟩
        intro h
        rcases List.mem_append.mp h with h' | h'
        · exact hO.2 h'
        · exact hu1 h'
      have hstep : joinLines ((init ++ [o]) ++ [mkEntry k e])
          = joinLines (init ++ [o ++ mkEntry k e]) := by
        rw [joinLines_append, joinLines_append, joinLines_append]
        simp [joinLines]
      rw [hstep]
      have hac : AllClosed (init ++ [o ++ mkEntry k e]) :=
        AllClosed_append _ _ hAI
          (fun l hl => by rw [List.mem_singleton.mp hl]; exact hm)
      rw [roundtrip_closed _ hac]
      left
      exact hac

theorem updConf_lookup (k e : Str) (ls : List Str) (hk : '\n' ∉ k)
    (he : '\n' ∉ e) (hkr : '\r' ∉ k) (her : '\r' ∉ e)
    (hlsr : ∀ l ∈ ls, '\r' ∉ l)
    (hsh : AllClosed ls ∨
      ((∃ init o, ls = init ++ [o] ∧ AllClosed init ∧ OpenLine o) ∧
        ls.any (startsWith (keyPat k)) = true)) :
    firstMatch (startsWith (keyPat k))
        (pyReadlines (joinLines (updConfLines k e ls)))
      = some (mkEntry k e) := by
  have hred : pyReadlines (joinLines (updConfLines k e ls))
      = splitLines (joinLines (updConfLines k e ls)) := by
    unfold pyReadlines
    rw [translate_id _ (updContent_no_cr k e ls hlsr hkr her)]
  rw [hred]
  have hent : startsWith (keyPat k) (mkEntry k e) = true := startsWith_mkEntry k e
  have hcl : ClosedLine (mkEntry k e) := mkEntry_closed k e hk he
  by_cases hany : ls.any (startsWith (keyPat k)) = true
  · rw [updConfLines_spec, if_pos hany]
    rcases hsh with hC | ⟨⟨init, o, hEq, hAI, hO⟩, _⟩
    · rw [roundtrip_closed _ (AllClosed_map_replace _ _ _ hC hcl)]
      exact firstMatch_map_replace _ _ _ hent hany
    · rw [hEq, List.map_append]
      by_cases hpo : startsWith (keyPat k) o = true
      · rw [show List.map (fun l => if startsWith (keyPat k) l = true
            then mkEntry k e else l) [o] = [mkEntry k e] from by simp [hpo]]
        have hac : AllClosed (List.map (fun l =>
            if startsWith (keyPat k) l = true then mkEntry k e else l) init
              ++ [mkEntry k e]) :=
          AllClosed_append _ _ (AllClosed_map_replace _ _ _ hAI hcl)
            (fun l hl => by rw [List.mem_singleton.mp hl]; exact hcl)
        rw [roundtrip_closed _ hac]
        by_cases hIany : init.any (startsWith (keyPat k)) = true
        · rw [firstMatch_append_match _ _ _ (any_map_replace _ _ _ hent hIany)]
          exact firstMatch_map_replace _ _ _ hent hIany
        · simp only [Bool.not_eq_true] at hIany
          rw [map_replace_of_no_match _ _ _ hIany,
            firstMatch_append_no_match _ _ _ hIany]
          simp [firstMatch, hent]
      · rw [show List.map (fun l => if startsWith (keyPat k) l = true
            then mkEntry k e else l) [o] = [o] from by simp [hpo]]
        have hacl : AllClosed (List.map (fun l =>
            if startsWith (keyPat k) l = true then mkEntry k e else l) init) :=
          AllClosed_map_replace _ _ _ hAI hcl
        rw [show joinLines (List.map (fun l =>
              if startsWith (keyPat k) l = true then mkEntry k e else l) init
                ++ [o])
            = joinLines (List.map (fun l =>
              if startsWith (keyPat k) l = true then mkEntry k e else l) init)
                ++ o from by
          rw [joinLines_append]; simp [joinLines]]
        rw [roundtrip_closed_open _ _ hacl hO]
        have hIany : init.any (startsWith (keyPat k)) = true := by
          rw [hEq, List.any_append] at hany
          simp only [List.any_cons, List.any_nil, Bool.or_false] at hany
          rcases Bool.or_eq_true_iff.mp hany with h | h
          · exact h
          · exact absurd h hpo
        rw [firstMatch_append_match _ _ _ (any_map_replace _ _ _ hent hIany)]
        exact firstMatch_map_replace _ _ _ hent hIany
  · rcases hsh with hC | ⟨_, hany2⟩
    · rw [updConfLines_spec, if_neg hany]
      have hac : AllClosed (ls ++ [mkEntry k e]) :=
        AllClosed_append _ _ hC
          (fun l hl => by rw [List.mem_singleton.mp hl]; exact hcl)
      rw [roundtrip_closed _ hac]
      simp only [Bool.not_eq_true] at hany
      rw [firstMatch_append_no_match _ _ _ hany]
      simp [firstMatch, hent]
    · exact absurd hany2 hany

/-- Claim C7 (amended): last write wins in the ledger, for keys and
values free of newlines and carriage returns: after two successive
`update_conf_apps` writes for the same key on any prior ledger content,
the first line starting with `key=` is exactly the entry built from the
later value. -/
theorem last_write_wins (L k e1 e2 : Str) (hk : '\n' ∉ k)
    (hkr : '\r' ∉ k) (h1 : '\n' ∉ e1) (h1r : '\r' ∉ e1)
    (h2 : '\n' ∉ e2) (h2r : '\r' ∉ e2) :
    lookupConfLine k (updConf k e2 (updConf k e1 L))
      = some (mkEntry k e2) := by
  have hsh := updConf_shape k e1 L hk h1 hkr h1r
  exact updConf_lookup k e2 (pyReadlines (updConf k e1 L)) hk h2 hkr h2r
    (fun l hl => pyReadlines_no_cr _ l hl) hsh

/-- Witness for the amended C7 at concrete key, values and prior ledger. -/
theorem last_write_wins_witness :
    ('\n' ∉ "Crash".data ∧ '\r' ∉ "Crash".data ∧
      '\n' ∉ "XX.A.ELF".data ∧ '\r' ∉ "XX.A.ELF".data ∧
      '\n' ∉ "XX.B.ELF".data ∧ '\r' ∉ "XX.B.ELF".data) ∧
    lookupConfLine "Crash".data
        (updConf "Crash".data "XX.B.ELF".data
          (updConf "Crash".data "XX.A.ELF".data "Old=mass:/XX.O.ELF\n".data))
      = some (mkEntry "Crash".data "XX.B.ELF".data) :=
  ⟨⟨by decide, by decide, by decide, by decide, by decide, by decide⟩,
    last_write_wins "Old=mass:/XX.O.ELF\n".data "Crash".data
      "XX.A.ELF".data "XX.B.ELF".data (by decide) (by decide) (by decide)
      (by decide) (by decide) (by decide)⟩

/-- Counterexample to claim C7 as stated for arbitrary keys: with the
newline-containing key `a\nb`, two successive writes leave the ledger
with no line starting with `a\nb=` at all, so the lookup does not yield
the later entry. -/
theorem last_write_wins_newline_cex :
    lookupConfLine "a\nb".data
        (updConf "a\nb".data "E2".data (updConf "a\nb".data "E1".data []))
      ≠ some (mkEntry "a\nb".data "E2".data) := by
  decide

/-! ### Claim C10 -/

theorem splitAux_all_closed (M : Str) :
    ∀ acc : Str, '\n' ∉ acc → AllClosed (splitLinesAux (M ++ ['\n']) acc) := by
  induction M with
  | nil =>
    intro acc hacc
    simp only [List.nil_append, splitLinesAux, if_pos rfl]
    intro l hl
    rcases List.mem_cons.mp hl with h | h
    · exact ⟨acc.reverse, by simpa using hacc, h⟩
    · simp [splitLinesAux] at h
  | cons c cs ih =>
    intro acc hacc
    by_cases hc : c = '\n'
    · subst hc
      simp only [List.cons_append, splitLinesAux, if_pos rfl]
      intro l hl
      rcases List.mem_cons.mp hl with h | h
      · exact ⟨acc.reverse, by simpa using hacc, h⟩
      · exact ih [] (by simp) l h
    · simp only [List.cons_append, splitLinesAux, if_neg hc]
      exact ih (c :: acc) (by simp [hacc, Ne.symm hc])

theorem splitLines_closed_of_newline_end (L : Str)
    (h : L = [] ∨ ∃ M, L = M ++ ['\n']) : AllClosed (splitLines L) := by
  rcases h with h | ⟨M, hM⟩
  · subst h
    intro l hl
    simp [splitLines, splitLinesAux] at hl
  · subst hM
    exact splitAux_all_closed M [] (by simp)

theorem takeWhile_all (p : Char → Bool) (l : Str)
    (h : ∀ c ∈ l, p c = true) : l.takeWhile p = l := by
  induction l with
  | nil => rfl
  | cons c cs ih =>
    simp only [List.takeWhile, h c (by simp)]
    rw [ih (fun x hx => h x (by simp [hx]))]

theorem pyStrip_mid_newline (a z : Char) (mid : Str) (ha : pyIsSpace a = false)
    (hz : pyIsSpace z = false) :
    pyStrip ((a :: (mid ++ [z])) ++ ['\n']) = a :: (mid ++ [z]) := by
  unfold pyStrip
  rw [show (a :: (mid ++ [z])) ++ ['\n'] = a :: ((mid ++ [z]) ++ ['\n'])
    from by simp]
  rw [dropWhile_cons_false _ _ _ ha]
  rw [show (a :: ((mid ++ [z]) ++ ['\n'])).reverse
      = '\n' :: (z :: (mid.reverse ++ [a])) from by simp]
  rw [show List.dropWhile pyIsSpace ('\n' :: (z :: (mid.reverse ++ [a])))
      = List.dropWhile pyIsSpace (z :: (mid.reverse ++ [a])) from by
    simp [List.dropWhile, pyIsSpace]]
  rw [dropWhile_cons_false _ _ _ hz]
  simp

theorem removeMass_no_slash (w : Str) (h : '/' ∉ w) : removeMass w = w := by
  induction w with
  | nil => rfl
  | cons c cs ih =>
    rw [removeMass.eq_def]
    split
    · rename_i cs' heq
      exfalso
      apply h
      rw [show c :: cs = 'm' :: 'a' :: 's' :: 's' :: ':' :: '/' :: cs'
        from heq]
      simp
    · rename_i x1 c' cs' hno heq
      injection heq with h1 h2
      subst h1
      subst h2
      rw [ih (fun hx => h (by simp [hx]))]
    · rename_i heq
      simp at heq

theorem ntBasename_plain (w : Str) (hd : dropDrive w = w)
    (h : ∀ c ∈ w, (c ≠ '/' && c ≠ '\\') = true) : ntBasename w = w := by
  unfold ntBasename
  rw [hd, takeWhile_all _ _ (fun c hc => h c (List.mem_reverse.mp hc)),
    List.reverse_reverse]

/-- Claim C10 (amended): the write/read round trip holds for keys free
of `'='`, newlines and carriage returns, and stems free of path
separators, newlines and carriage returns, on a carriage-return-free
ledger that is absent, empty or newline-terminated and has no line for
the key: after `update_conf_apps k (XX.<b>.ELF)`,
`get_elf_name_from_game_key k` returns exactly `b`. -/
theorem ledger_roundtrip (L k b : Str)
    (hk1 : '\n' ∉ k) (hk2 : '=' ∉ k) (hk3 : '\r' ∉ k)
    (hb1 : '\n' ∉ b) (hb2 : '/' ∉ b) (hb3 : '\\' ∉ b) (hb4 : '\r' ∉ b)
    (hL : L = [] ∨ ∃ M, L = M ++ ['\n']) (hLr : '\r' ∉ L)
    (hnone : (splitLines L).any (startsWith (keyPat k)) = false) :
    get_elf_name_from_game_key k
        (some (updConf k ("XX.".data ++ b ++ ".ELF".data) L)) = some b := by
  have helf_nl : '\n' ∉ "XX.".data ++ b ++ ".ELF".data := by
    intro h
    rcases List.mem_append.mp h with h' | h'
    · rcases List.mem_append.mp h' with h'' | h''
      · simp at h''
      · exact hb1 h''
    · simp at h'
  have helf_r : '\r' ∉ "XX.".data ++ b ++ ".ELF".data := by
    intro h
    rcases List.mem_append.mp h with h' | h'
    · rcases List.mem_append.mp h' with h'' | h''
      · simp at h''
      · exact hb4 h''
    · simp at h'
  have hcl : ClosedLine (mkEntry k ("XX.".data ++ b ++ ".ELF".data)) :=
    mkEntry_closed k _ hk1 helf_nl
  have hC : AllClosed (splitLines L) := splitLines_closed_of_newline_end L hL
  have hplr : pyReadlines L = splitLines L := by
    unfold pyReadlines
    rw [translate_id L hLr]
  have hupd : pyReadlines (updConf k ("XX.".data ++ b ++ ".ELF".data) L)
      = splitLines L ++ [mkEntry k ("XX.".data ++ b ++ ".ELF".data)] := by
    have hnc : '\r' ∉ updConf k ("XX.".data ++ b ++ ".ELF".data) L := by
      unfold updConf
      exact updContent_no_cr k _ _ (fun l hl => pyReadlines_no_cr L l hl)
        hk3 helf_r
    unfold pyReadlines
    rw [translate_id _ hnc, updConf, hplr]
    rw [updConfLines_spec, if_neg (by rw [hnone]; simp)]
    exact roundtrip_closed _ (AllClosed_append _ _ hC
      (fun l hl => by rw [List.mem_singleton.mp hl]; exact hcl))
  have hfm : firstMatch (startsWith (keyPat k))
      (pyReadlines (updConf k ("XX.".data ++ b ++ ".ELF".data) L))
      = some (mkEntry k ("XX.".data ++ b ++ ".ELF".data)) := by
    rw [hupd, firstMatch_append_no_match _ _ _ hnone]
    simp [firstMatch, startsWith_mkEntry]
  have hafter : afterFirstEq (mkEntry k ("XX.".data ++ b ++ ".ELF".data))
      = "mass:/".data ++ ("XX.".data ++ b ++ ".ELF".data) ++ ['\n'] := by
    unfold afterFirstEq
    rw [show mkEntry k ("XX.".data ++ b ++ ".ELF".data)
        = k ++ '=' :: ("mass:/".data ++ ("XX.".data ++ b ++ ".ELF".data)
            ++ ['\n']) from by simp [mkEntry]]
    rw [dropWhile_all_append _ k _
      (fun c hc => by
        have : c ≠ '=' := fun he => hk2 (he ▸ hc)
        simpa using this)
      (fun c hc => by
        cases hc
        simp)]
    rfl
  have hshape : "mass:/".data ++ ("XX.".data ++ b ++ ".ELF".data)
      = 'm' :: (("ass:/XX.".data ++ b ++ ".EL".data) ++ ['F']) := by
    simp
  have hstrip : pyStrip (afterFirstEq
      (mkEntry k ("XX.".data ++ b ++ ".ELF".data)))
      = "mass:/".data ++ ("XX.".data ++ b ++ ".ELF".data) := by
    rw [hafter, hshape]
    exact pyStrip_mid_newline 'm' 'F' _ (by decide) (by decide)
  have hrm : removeMass ("mass:/".data ++ ("XX.".data ++ b ++ ".ELF".data))
      = "XX.".data ++ b ++ ".ELF".data := by
    rw [show "mass:/".data ++ ("XX.".data ++ b ++ ".ELF".data)
        = 'm' :: 'a' :: 's' :: 's' :: ':' :: '/' ::
            ("XX.".data ++ b ++ ".ELF".data) from by simp]
    rw [show removeMass ('m' :: 'a' :: 's' :: 's' :: ':' :: '/' ::
        ("XX.".data ++ b ++ ".ELF".data))
        = removeMass ("XX.".data ++ b ++ ".ELF".data) from rfl]
    refine removeMass_no_slash _ ?_
    intro h
    rcases List.mem_append.mp h with h' | h'
    · rcases List.mem_append.mp h' with h'' | h''
      · simp at h''
      · exact hb2 h''
    · simp at h'
  have hbn : ntBasename ("XX.".data ++ b ++ ".ELF".data)
      = "XX.".data ++ b ++ ".ELF".data := by
    refine ntBasename_plain _ ?_ ?_
    · rw [show "XX.".data ++ b ++ ".ELF".data
        = 'X' :: 'X' :: ('.' :: b ++ ".ELF".data) from by simp]
      rfl
    · intro c hc
      have hcs : c ≠ '/' ∧ c ≠ '\\' := by
        constructor
        · intro he
          subst he
          rcases List.mem_append.mp hc with h' | h'
          · rcases List.mem_append.mp h' with h'' | h''
            · simp at h''
            · exact hb2 h''
          · simp at h'
        · intro he
          subst he
          rcases List.mem_append.mp hc with h' | h'
          · rcases List.mem_append.mp h' with h'' | h''
            · simp at h''
            · exact hb3 h''
          · simp at h'
      simp [hcs.1, hcs.2]
  have hsw : startsWith "XX.".data ("XX.".data ++ b ++ ".ELF".data) = true := by
    rw [show "XX.".data ++ b ++ ".ELF".data
      = "XX.".data ++ (b ++ ".ELF".data) from by simp]
    exact startsWith_append_left _ _
  have hslice : ((("XX.".data ++ b ++ ".ELF".data).take
      (("XX.".data ++ b ++ ".ELF".data).length - 4)).drop 3) = b := by
    have hlen : ("XX.".data ++ b ++ ".ELF".data).length - 4
        = ("XX.".data ++ b).length := by
      simp
    rw [hlen, List.take_left]
    rw [show "XX.".data ++ b = 'X' :: 'X' :: '.' :: b from by simp]
    rfl
  simp only [get_elf_name_from_game_key, hfm, hstrip, hrm, hbn, hsw,
    if_true, hslice]

/-- Witness for the amended C10 at concrete key, stem and empty ledger. -/
theorem ledger_roundtrip_witness :
    ('\n' ∉ "Wipeout".data ∧ '=' ∉ "Wipeout".data ∧
      '\r' ∉ "Wipeout".data ∧
      '\n' ∉ "SCES_000.10".data ∧ '/' ∉ "SCES_000.10".data ∧
      '\\' ∉ "SCES_000.10".data ∧ '\r' ∉ "SCES_000.10".data ∧
      (([] : Str) = [] ∨ ∃ M, ([] : Str) = M ++ ['\n']) ∧
      '\r' ∉ ([] : Str) ∧
      (splitLines []).any (startsWith (keyPat "Wipeout".data)) = false) ∧
    get_elf_name_from_game_key "Wipeout".data
        (some (updConf "Wipeout".data
          ("XX.".data ++ "SCES_000.10".data ++ ".ELF".data) []))
      = some "SCES_000.10".data :=
  ⟨⟨by decide, by decide, by decide, by decide, by decide, by decide,
      by decide, Or.inl rfl, by decide, by decide⟩,
    ledger_roundtrip [] "Wipeout".data "SCES_000.10".data (by decide)
      (by decide) (by decide) (by decide) (by decide) (by decide)
      (by decide) (Or.inl rfl) (by decide) (by decide)⟩

/-- Counterexample to claim C10 as stated for arbitrary stems: with the
stem `a/b` (containing a path separator), the round trip returns `b`
rather than `a/b`, because the lookup takes the basename of the stored
path. -/
theorem ledger_roundtrip_slash_cex :
    get_elf_name_from_game_key "g".data
        (some (updConf "g".data
          ("XX.".data ++ "a/b".data ++ ".ELF".data) []))
      ≠ some "a/b".data := by
  decide

end PopCraft
